import Mathlib

/-!
Shallow embedding of `src/Python/arithmetique.py` (module `arithmetique`,
elementary number-theory routines) and verification of its specification.

Python's `%` and `//` on integers are floor-mod and floor-division, embedded
as `Int.fmod` and `Int.fdiv`.  Python `divmod(a, b)` is `(a.fdiv b, a.fmod b)`.
-/

namespace Arithmetique

/-! ### Facts about floor division, needed for termination and ranges -/

theorem fdiv_neg_neg (a b : Int) : Int.fdiv (-a) (-b) = Int.fdiv a b := by
  rcases eq_or_ne b 0 with rfl | hb
  · simp
  · rcases a with (_ | m) | m <;> rcases b with (_ | n) | n <;>
      first
      | rfl
      | exact absurd rfl hb

theorem fmod_neg_neg (a b : Int) : Int.fmod (-a) (-b) = -Int.fmod a b := by
  rw [Int.fmod_def, Int.fmod_def, fdiv_neg_neg]
  ring

theorem fmod_nonpos_of_neg (a : Int) {b : Int} (hb : b < 0) : Int.fmod a b ≤ 0 := by
  have h : Int.fmod a b = -Int.fmod (-a) (-b) := by
    rw [fmod_neg_neg, neg_neg]
  rw [h]
  simp only [Left.neg_nonpos_iff]
  exact Int.fmod_nonneg' (-a) (by omega)

theorem lt_fmod_of_neg (a : Int) {b : Int} (hb : b < 0) : b < Int.fmod a b := by
  have h : Int.fmod a b = -Int.fmod (-a) (-b) := by
    rw [fmod_neg_neg, neg_neg]
  have h2 := Int.fmod_lt_of_pos (-a) (b := -b) (by omega)
  omega

theorem natAbs_fmod_lt (a : Int) {b : Int} (hb : b ≠ 0) :
    (Int.fmod a b).natAbs < b.natAbs := by
  rcases lt_or_gt_of_ne hb with h | h
  · have h1 := fmod_nonpos_of_neg a h
    have h2 := lt_fmod_of_neg a h
    omega
  · have h1 := Int.fmod_nonneg' a h
    have h2 := Int.fmod_lt_of_pos a h
    omega

theorem dvd_sub_fmod (a b : Int) : b ∣ a - Int.fmod a b := by
  rw [Int.fmod_def]
  exact ⟨Int.fdiv a b, by ring⟩

theorem fmod_eq_zero_iff_dvd (a b : Int) :
    Int.fmod a b = 0 ↔ b ∣ a := by
  constructor
  · intro h
    have := dvd_sub_fmod a b
    rw [h] at this
    simpa using this
  · intro ⟨t, ht⟩
    subst ht
    exact Int.mul_fmod_right b t

/-! ### `pgcd` (lines 38-66): Euclidean algorithm on absolute values -/

/-- The `while b1 != 0` loop of `pgcd`: `a1, b1 = b1, a1 % b1`;
returns `abs(a1)` once `b1 = 0`. -/
def pgcdLoop (a1 b1 : Int) : Int :=
  if b1 = 0 then |a1|
  else pgcdLoop b1 (Int.fmod a1 b1)
termination_by b1.natAbs
decreasing_by exact natAbs_fmod_lt a1 (by assumption)

/-- `pgcd(a, b)`: runs the loop from `(abs(a), abs(b))`. -/
def pgcd (a b : Int) : Int := pgcdLoop |a| |b|

theorem gcd_sub_mul_right (a b q : Int) : Int.gcd b (a - b * q) = Int.gcd a b := by
  apply Nat.dvd_antisymm
  · rw [← Int.natCast_dvd_natCast]
    apply Int.dvd_gcd
    · have h1 : (↑(Int.gcd b (a - b * q)) : Int) ∣ b := Int.gcd_dvd_left
      have h2 : (↑(Int.gcd b (a - b * q)) : Int) ∣ a - b * q := Int.gcd_dvd_right
      have h4 := dvd_add h2 (h1.mul_right q)
      have h3 : (a - b * q) + b * q = a := by ring
      rwa [h3] at h4
    · exact Int.gcd_dvd_left
  · rw [← Int.natCast_dvd_natCast]
    apply Int.dvd_gcd
    · exact Int.gcd_dvd_right
    · have h1 : (↑(Int.gcd a b) : Int) ∣ a := Int.gcd_dvd_left
      have h2 : (↑(Int.gcd a b) : Int) ∣ b := Int.gcd_dvd_right
      exact dvd_sub h1 (h2.mul_right q)

theorem pgcdLoop_eq_gcd (a1 b1 : Int) : pgcdLoop a1 b1 = (Int.gcd a1 b1 : Int) := by
  induction a1, b1 using pgcdLoop.induct with
  | case1 a1 =>
    rw [pgcdLoop, if_pos rfl, Int.gcd_zero_right]
    exact Int.abs_eq_natAbs a1
  | case2 a1 b1 h ih =>
    rw [pgcdLoop, if_neg h, ih, Int.fmod_def, gcd_sub_mul_right, Int.gcd_comm]

theorem pgcd_eq_gcd (a b : Int) : pgcd a b = (Int.gcd a b : Int) := by
  rw [pgcd, pgcdLoop_eq_gcd]
  congr 1
  rw [Int.gcd_def, Int.gcd_def, Int.natAbs_abs, Int.natAbs_abs]

/-! ### `euclide_etendu` (lines 68-98): extended Euclidean algorithm -/

/-- The `while r1 != 0` loop of `euclide_etendu`:
`q, r = divmod(r0, r1)` then the simultaneous updates
`r0, r1 = r1, r`, `u0, u1 = u1, u0 - q*u1`, `v0, v1 = v1, v0 - q*v1`;
returns `(r0, u0, v0)` once `r1 = 0`. -/
def euclideLoop (r0 r1 u0 u1 v0 v1 : Int) : Int × Int × Int :=
  if r1 = 0 then (r0, u0, v0)
  else
    euclideLoop r1 (Int.fmod r0 r1)
      u1 (u0 - Int.fdiv r0 r1 * u1)
      v1 (v0 - Int.fdiv r0 r1 * v1)
termination_by r1.natAbs
decreasing_by exact natAbs_fmod_lt r0 (by assumption)

/-- `euclide_etendu(a, b)`: runs the loop from
`r0, r1 = a, b`, `u0, u1 = 1, 0`, `v0, v1 = 0, 1`, then negates the
resulting triple when `r0 < 0`. -/
def euclide_etendu (a b : Int) : Int × Int × Int :=
  let t := euclideLoop a b 1 0 0 1
  if t.1 < 0 then (-t.1, -t.2.1, -t.2.2) else t

theorem euclideLoop_spec (a b : Int) :
    ∀ r0 r1 u0 u1 v0 v1 : Int,
      a * u0 + b * v0 = r0 → a * u1 + b * v1 = r1 →
      (euclideLoop r0 r1 u0 u1 v0 v1).1 = a * (euclideLoop r0 r1 u0 u1 v0 v1).2.1
          + b * (euclideLoop r0 r1 u0 u1 v0 v1).2.2
        ∧ (euclideLoop r0 r1 u0 u1 v0 v1).1.natAbs = Int.gcd r0 r1 := by
  intro r0 r1 u0 u1 v0 v1
  induction r0, r1, u0, u1, v0, v1 using euclideLoop.induct with
  | case1 r0 u0 u1 v0 v1 =>
    intro h0 _
    rw [euclideLoop, if_pos rfl]
    exact ⟨h0.symm, (Int.gcd_zero_right r0).symm⟩
  | case2 r0 r1 u0 u1 v0 v1 h ih =>
    intro h0 h1
    rw [euclideLoop, if_neg h]
    have hr : a * (u0 - Int.fdiv r0 r1 * u1) + b * (v0 - Int.fdiv r0 r1 * v1)
        = Int.fmod r0 r1 := by
      rw [Int.fmod_def, ← h0, ← h1]
      ring
    obtain ⟨hbez, hgcd⟩ := ih h1 hr
    refine ⟨hbez, ?_⟩
    rw [hgcd, Int.fmod_def, gcd_sub_mul_right, Int.gcd_comm]

theorem euclide_etendu_spec (a b : Int) :
    (euclide_etendu a b).1
        = a * (euclide_etendu a b).2.1 + b * (euclide_etendu a b).2.2
      ∧ (euclide_etendu a b).1 = (Int.gcd a b : Int)
      ∧ 0 ≤ (euclide_etendu a b).1 := by
  obtain ⟨h1, h2⟩ := euclideLoop_spec a b a b 1 0 0 1 (by ring) (by ring)
  simp only [euclide_etendu]
  by_cases hneg : (euclideLoop a b 1 0 0 1).1 < 0
  · rw [if_pos hneg]
    refine ⟨by rw [h1]; ring, ?_, by omega⟩
    rw [← h2]
    omega
  · rw [if_neg hneg]
    refine ⟨h1, ?_, by omega⟩
    rw [← h2]
    omega

/-! ### `mon_divmod` (lines 12-36): Euclidean division by repeated subtraction

The `while r >= b` loop need not terminate (for `b <= 0` and `a >= b` it runs
forever), so it is embedded with explicit fuel: `none` means the loop has not
finished within the given number of iterations.  Divergence of the Python loop
is expressed as `∀ fuel, monDivmodLoop fuel b q r = none`. -/

def monDivmodLoop : Nat → Int → Int → Int → Option (Int × Int)
  | 0, _, _, _ => none
  | fuel + 1, b, q, r =>
    if b ≤ r then monDivmodLoop fuel b (q + 1) (r - b) else some (q, r)

/-- `mon_divmod(a, b)` starting from `q, r = 0, a`.  For the terminating cases
(`b > 0`, or `a < b`) `a.toNat + 1` iterations are always enough. -/
def mon_divmod (a b : Int) : Option (Int × Int) :=
  monDivmodLoop (a.toNat + 1) b 0 a

theorem monDivmodLoop_none_of_nonpos (b : Int) (hb : b ≤ 0) :
    ∀ (fuel : Nat) (q r : Int), b ≤ r → monDivmodLoop fuel b q r = none := by
  intro fuel
  induction fuel with
  | zero => intro q r _; rfl
  | succ n ih =>
    intro q r hr
    rw [monDivmodLoop, if_pos hr]
    exact ih (q + 1) (r - b) (by omega)

/-! ### `inverse_mod` (lines 101-118)

The two Python `assert` statements are embedded as `Except.error`. -/

def inverse_mod (a n : Int) : Except String Int :=
  if n = 0 then Except.error "n ne doit pas etre nul"
  else
    let t := euclide_etendu a n
    if t.1 ≠ 1 then Except.error "a non inversible modulo n"
    else Except.ok (Int.fmod t.2.1 n)

theorem fmod_eq_fmod_iff (x y : Int) {n : Int} (hn : n ≠ 0) :
    Int.fmod x n = Int.fmod y n ↔ n ∣ x - y := by
  constructor
  · intro h
    have hx := dvd_sub_fmod x n
    have hy := dvd_sub_fmod y n
    have h2 : x - y = (x - Int.fmod x n) - (y - Int.fmod y n) := by
      rw [h]; ring
    rw [h2]
    exact dvd_sub hx hy
  · intro h
    have hx := dvd_sub_fmod x n
    have hy := dvd_sub_fmod y n
    have hdvd : n ∣ Int.fmod x n - Int.fmod y n := by
      have h3 : Int.fmod x n - Int.fmod y n
          = (x - y) - (x - Int.fmod x n) + (y - Int.fmod y n) := by ring
      rw [h3]
      exact dvd_add (dvd_sub h hx) hy
    have hzero : Int.fmod x n - Int.fmod y n = 0 := by
      apply Int.eq_zero_of_dvd_of_natAbs_lt_natAbs hdvd
      rcases lt_or_gt_of_ne hn with hneg | hpos
      · have b1 := fmod_nonpos_of_neg x hneg
        have b2 := lt_fmod_of_neg x hneg
        have b3 := fmod_nonpos_of_neg y hneg
        have b4 := lt_fmod_of_neg y hneg
        omega
      · have b1 := Int.fmod_nonneg' x hpos
        have b2 := Int.fmod_lt_of_pos x hpos
        have b3 := Int.fmod_nonneg' y hpos
        have b4 := Int.fmod_lt_of_pos y hpos
        omega
    omega

/-- Amended behaviour of `inverse_mod`: result congruent to the inverse, lying
in `[0, n)` for `n > 0` but in `(n, 0]` for `n < 0`. -/
theorem inverse_mod_spec (a n : Int) (hn : n ≠ 0) :
    (Int.gcd a n = 1 →
      ∃ u, inverse_mod a n = Except.ok u
        ∧ Int.fmod (a * u) n = Int.fmod 1 n
        ∧ (0 < n → 0 ≤ u ∧ u < n)
        ∧ (n < 0 → n < u ∧ u ≤ 0))
    ∧ (Int.gcd a n ≠ 1 →
      inverse_mod a n = Except.error "a non inversible modulo n") := by
  obtain ⟨hbez, hgcd, hpos⟩ := euclide_etendu_spec a n
  constructor
  · intro h1
    have ht1 : (euclide_etendu a n).1 = 1 := by rw [hgcd, h1]; rfl
    refine ⟨Int.fmod (euclide_etendu a n).2.1 n, ?_, ?_, ?_, ?_⟩
    · rw [inverse_mod, if_neg hn]
      simp only [ht1, ne_eq, not_true_eq_false, ite_false]
    · rw [fmod_eq_fmod_iff _ _ hn]
      have hu := dvd_sub_fmod (euclide_etendu a n).2.1 n
      obtain ⟨k, hk⟩ := hu
      have hlin : a * (euclide_etendu a n).2.1 + n * (euclide_etendu a n).2.2 = 1 := by
        rw [← hbez, ht1]
      refine ⟨-(euclide_etendu a n).2.2 - a * k, ?_⟩
      have hfm : Int.fmod (euclide_etendu a n).2.1 n
          = (euclide_etendu a n).2.1 - n * k := by omega
      rw [hfm]
      linear_combination hlin
    · intro hplus
      exact ⟨Int.fmod_nonneg' _ hplus, Int.fmod_lt_of_pos _ hplus⟩
    · intro hminus
      exact ⟨lt_fmod_of_neg _ hminus, fmod_nonpos_of_neg _ hminus⟩
  · intro h1
    rw [inverse_mod, if_neg hn]
    rw [if_pos]
    rw [hgcd]
    intro hcast
    apply h1
    exact_mod_cast hcast

/-! ### `resoud_equation` (lines 121-158): linear Diophantine equations

The Python value `()` (no solution) is embedded as `none`. -/

def resoud_equation (a b c : Int) : Option ((Int × Int) × (Int × Int)) :=
  let d := pgcd a b
  let c1 := Int.fdiv c d
  let r := Int.fmod c d
  if r ≠ 0 then none
  else
    let a1 := Int.fdiv a d
    let b1 := Int.fdiv b d
    let t := euclide_etendu a1 b1
    some ((c1 * t.2.1, c1 * t.2.2), (-b1, a1))

theorem resoud_equation_spec (a b c : Int) (hab : ¬(a = 0 ∧ b = 0)) :
    (¬(pgcd a b ∣ c) → resoud_equation a b c = none)
    ∧ (pgcd a b ∣ c →
      ∃ x0 y0 alpha beta : Int,
        resoud_equation a b c = some ((x0, y0), (alpha, beta))
          ∧ (∀ k : Int, a * (x0 + alpha * k) + b * (y0 + beta * k) = c)
          ∧ (∀ x y : Int, a * x + b * y = c →
              ∃ k : Int, x = x0 + alpha * k ∧ y = y0 + beta * k)) := by
  have hgcd0 : Int.gcd a b ≠ 0 := by
    rw [Ne, Int.gcd_eq_zero_iff]
    exact hab
  have hd0 : pgcd a b ≠ 0 := by
    rw [pgcd_eq_gcd]
    exact_mod_cast hgcd0
  constructor
  · intro hndvd
    simp only [resoud_equation]
    rw [if_pos (show Int.fmod c (pgcd a b) ≠ 0 from
      fun h => hndvd ((fmod_eq_zero_iff_dvd c (pgcd a b)).mp h))]
  · intro hdvd
    have hr0 : Int.fmod c (pgcd a b) = 0 :=
      (fmod_eq_zero_iff_dvd c (pgcd a b)).mpr hdvd
    have hda : pgcd a b ∣ a := by rw [pgcd_eq_gcd]; exact Int.gcd_dvd_left
    have hdb : pgcd a b ∣ b := by rw [pgcd_eq_gcd]; exact Int.gcd_dvd_right
    have hmul : ∀ x : Int, pgcd a b ∣ x → pgcd a b * Int.fdiv x (pgcd a b) = x := by
      intro x hx
      obtain ⟨t, rfl⟩ := hx
      rw [Int.mul_fdiv_cancel_left _ hd0]
    have ha1 := hmul a hda
    have hb1 := hmul b hdb
    have hc1 := hmul c hdvd
    have hgcd1 : Int.gcd (Int.fdiv a (pgcd a b)) (Int.fdiv b (pgcd a b)) = 1 := by
      rw [Int.fdiv_eq_ediv_of_dvd hda, Int.fdiv_eq_ediv_of_dvd hdb, pgcd_eq_gcd]
      exact Int.gcd_div_gcd_div_gcd (Nat.pos_of_ne_zero hgcd0)
    simp only [resoud_equation]
    rw [if_neg (not_not_intro hr0)]
    set d := pgcd a b with hddef
    set a1 := Int.fdiv a d with ha1def
    set b1 := Int.fdiv b d with hb1def
    set c1 := Int.fdiv c d with hc1def
    obtain ⟨hbez, hgcdt, -⟩ := euclide_etendu_spec a1 b1
    set u := (euclide_etendu a1 b1).2.1 with hudef
    set v := (euclide_etendu a1 b1).2.2 with hvdef
    have hbez1 : a1 * u + b1 * v = 1 := by
      rw [← hbez, hgcdt, hgcd1]
      rfl
    refine ⟨c1 * u, c1 * v, -b1, a1, rfl, ?_, ?_⟩
    · intro k
      rw [← ha1, ← hb1, ← hc1]
      linear_combination d * c1 * hbez1
    · intro x y hxy
      have hxy1 : a1 * x + b1 * y = c1 := by
        apply mul_left_cancel₀ hd0
        rw [← ha1, ← hb1, ← hc1] at hxy
        linear_combination hxy
      have hsub : a1 * (x - c1 * u) + b1 * (y - c1 * v) = 0 := by
        linear_combination hxy1 - c1 * hbez1
      have hco : IsCoprime a1 b1 := Int.isCoprime_iff_gcd_eq_one.mpr hgcd1
      have hb1dvd : b1 ∣ x - c1 * u := by
        apply hco.symm.dvd_of_dvd_mul_left
        exact ⟨c1 * v - y, by linear_combination hsub⟩
      obtain ⟨t, ht⟩ := hb1dvd
      by_cases hb10 : b1 = 0
      · have hx : x = c1 * u := by
          rw [hb10, zero_mul] at ht
          omega
        have ha1sq : a1 * a1 = 1 := by
          have hnat : a1.natAbs = 1 := by
            rw [hb10, Int.gcd_zero_right] at hgcd1
            exact hgcd1
          rcases Int.natAbs_eq_iff.mp hnat with h | h <;> rw [h] <;> norm_num
        refine ⟨a1 * (y - c1 * v), ?_, ?_⟩
        · rw [hb10, neg_zero, zero_mul, add_zero]
          exact hx
        · linear_combination (c1 * v - y) * ha1sq
      · refine ⟨-t, ?_, ?_⟩
        · linear_combination ht
        · have h2 : b1 * (a1 * t + (y - c1 * v)) = 0 := by
            linear_combination hsub - a1 * ht
          have h3 : a1 * t + (y - c1 * v) = 0 := by
            rcases mul_eq_zero.mp h2 with h | h
            · exact absurd h hb10
            · exact h
          linear_combination h3

/-! ### `eratosthene` (lines 160-188): sieve of Eratosthenes

The Python `set` `barres` is used only through `add` and membership, so it is
embedded as a `List Nat` with cons and `∈`. -/

/-- The inner `while mp <= n` loop: mark `mp, mp+p, ...` up to `n`.
At every call site `p ≥ 2`; the `0 < p` guard only makes the recursion
well-founded on that unreachable degenerate case. -/
def marquerMultiples (n mp p : Nat) (barres : List Nat) : List Nat :=
  if 0 < p ∧ mp ≤ n then marquerMultiples n (mp + p) p (mp :: barres)
  else barres
termination_by n + 1 - mp
decreasing_by omega

/-- The outer `while p * p <= n` loop of `eratosthene`, returning the final
`premiers`, `barres` and `p`. -/
def eratLoop (n p : Nat) (premiers barres : List Nat) : List Nat × List Nat × Nat :=
  if p * p ≤ n then
    if p ∈ barres then eratLoop n (p + 1) premiers barres
    else eratLoop n (p + 1) (premiers ++ [p]) (marquerMultiples n (p + p) p barres)
  else (premiers, barres, p)
termination_by n + 1 - p
decreasing_by
  all_goals
    have hp : p ≤ n := by nlinarith
    omega

/-- `eratosthene(n)`: sieve phase, then append every unmarked `k` in
`range(p, n + 1)` (the final `for` loop appends in order, i.e. a filter). -/
def eratosthene (n : Nat) : List Nat :=
  let t := eratLoop n 2 [] []
  t.1 ++ (List.range' t.2.2 (n + 1 - t.2.2)).filter (fun k => k ∉ t.2.1)

/-! ### `est_premier1` (lines 190-204): membership in the full sieve -/

def est_premier1 (n : Nat) : Bool := n ∈ eratosthene n

theorem mem_marquerMultiples (n : Nat) :
    ∀ (mp p : Nat) (barres : List Nat), 0 < p → p ∣ mp →
      ∀ m, m ∈ marquerMultiples n mp p barres ↔
        m ∈ barres ∨ (p ∣ m ∧ mp ≤ m ∧ m ≤ n) := by
  intro mp p barres
  induction mp, p, barres using marquerMultiples.induct n with
  | case1 mp p barres hcond ih =>
    intro hp hdvd m
    rw [marquerMultiples, if_pos hcond, ih hp (dvd_add hdvd dvd_rfl) m,
      List.mem_cons]
    constructor
    · rintro ((rfl | hmem) | ⟨hd, hle, hn⟩)
      · exact Or.inr ⟨hdvd, le_rfl, hcond.2⟩
      · exact Or.inl hmem
      · exact Or.inr ⟨hd, by omega, hn⟩
    · rintro (hmem | ⟨hd, hle, hn⟩)
      · exact Or.inl (Or.inr hmem)
      · by_cases hm : m = mp
        · exact Or.inl (Or.inl hm)
        · refine Or.inr ⟨hd, ?_, hn⟩
          obtain ⟨i, rfl⟩ := hdvd
          obtain ⟨j, hj⟩ := hd
          have hij : i < j := by
            rcases Nat.lt_or_ge i j with h | h
            · exact h
            · have h2 : p * j ≤ p * i := Nat.mul_le_mul_left p h
              exact absurd (by omega) hm
          calc p * i + p = p * (i + 1) := by ring
            _ ≤ p * j := Nat.mul_le_mul_left p (by omega)
            _ = m := hj.symm
  | case2 mp p barres hcond =>
    intro hp hdvd m
    rw [marquerMultiples, if_neg hcond]
    constructor
    · exact Or.inl
    · rintro (h | ⟨_, hle, hn⟩)
      · exact h
      · omega

theorem eratLoop_spec (n : Nat) :
    ∀ (p : Nat) (premiers barres : List Nat),
      2 ≤ p → p ≤ n + 1 →
      (∀ m, m ∈ barres ↔ ∃ q, Nat.Prime q ∧ q < p ∧ q ∣ m ∧ q < m ∧ m ≤ n) →
      premiers = (List.range p).filter (fun k => decide (Nat.Prime k)) →
      2 ≤ (eratLoop n p premiers barres).2.2
        ∧ (eratLoop n p premiers barres).2.2 ≤ n + 1
        ∧ n < (eratLoop n p premiers barres).2.2 * (eratLoop n p premiers barres).2.2
        ∧ (eratLoop n p premiers barres).1
            = (List.range (eratLoop n p premiers barres).2.2).filter
                (fun k => decide (Nat.Prime k))
        ∧ (∀ m, m ∈ (eratLoop n p premiers barres).2.1 ↔
            ∃ q, Nat.Prime q ∧ q < (eratLoop n p premiers barres).2.2
              ∧ q ∣ m ∧ q < m ∧ m ≤ n) := by
  intro p premiers barres
  induction p, premiers, barres using eratLoop.induct n with
  | case1 p premiers barres hsq hmem ih =>
    intro hp2 _ hbar hprem
    have hpn' : p ≤ n := le_trans (Nat.le_mul_of_pos_left p (by omega)) hsq
    obtain ⟨q, hqprime, hqlt, hqdvd, hqm, -⟩ := (hbar p).mp hmem
    have hnp : ¬Nat.Prime p := by
      intro hp
      rcases (Nat.dvd_prime hp).mp hqdvd with h | h
      · have := hqprime.two_le
        omega
      · omega
    rw [eratLoop, if_pos hsq, if_pos hmem]
    apply ih (by omega) (by omega)
    · intro m
      rw [hbar m]
      constructor
      · rintro ⟨q', h1, h2, h3, h4, h5⟩
        exact ⟨q', h1, by omega, h3, h4, h5⟩
      · rintro ⟨q', h1, h2, h3, h4, h5⟩
        rcases Nat.lt_or_ge q' p with h | h
        · exact ⟨q', h1, h, h3, h4, h5⟩
        · have hq'p : q' = p := by omega
          rw [hq'p] at h1
          exact absurd h1 hnp
    · rw [hprem, List.range_succ, List.filter_append]
      simp [List.filter, hnp]
  | case2 p premiers barres hsq hmem ih =>
    intro hp2 _ hbar hprem
    have hpn' : p ≤ n := le_trans (Nat.le_mul_of_pos_left p (by omega)) hsq
    have hp : Nat.Prime p := by
      by_contra hnp
      apply hmem
      refine (hbar p).mpr ?_
      exact ⟨p.minFac, Nat.minFac_prime (by omega),
        (Nat.not_prime_iff_minFac_lt hp2).mp hnp, Nat.minFac_dvd p,
        (Nat.not_prime_iff_minFac_lt hp2).mp hnp, hpn'⟩
    rw [eratLoop, if_pos hsq, if_neg hmem]
    apply ih (by omega) (by omega)
    · intro m
      rw [mem_marquerMultiples n (p + p) p barres (by omega) ⟨2, by ring⟩ m, hbar m]
      constructor
      · rintro (⟨q', h1, h2, h3, h4, h5⟩ | ⟨hdvd, hle, hmn⟩)
        · exact ⟨q', h1, by omega, h3, h4, h5⟩
        · exact ⟨p, hp, by omega, hdvd, by omega, hmn⟩
      · rintro ⟨q', h1, h2, h3, h4, h5⟩
        rcases Nat.lt_or_ge q' p with h | h
        · exact Or.inl ⟨q', h1, h, h3, h4, h5⟩
        · have hq'p : q' = p := by omega
          refine Or.inr ⟨hq'p ▸ h3, ?_, h5⟩
          obtain ⟨j, hj⟩ := h3
          have hj2 : 2 ≤ j := by
            by_contra hle1
            push_neg at hle1
            have h6 : q' * j ≤ q' * 1 := Nat.mul_le_mul_left q' (by omega)
            have h7 := h1.two_le
            omega
          have h8 : q' + q' ≤ m := by
            rw [hj]
            calc q' + q' = q' * 2 := by ring
              _ ≤ q' * j := Nat.mul_le_mul_left q' hj2
          omega
    · rw [hprem, List.range_succ, List.filter_append]
      simp [List.filter, hp]
  | case3 p premiers barres hsq =>
    intro hp2 hpn hbar hprem
    rw [eratLoop, if_neg hsq]
    refine ⟨hp2, hpn, ?_, hprem, hbar⟩
    show n < p * p
    omega

/-- The sieve computes exactly the primes in `[2, n]`, in ascending order
(as the prime-filtered `range`). -/
theorem eratosthene_eq (n : Nat) (hn : 1 ≤ n) :
    eratosthene n = (List.range (n + 1)).filter (fun k => decide (Nat.Prime k)) := by
  have hbar0 : ∀ m : Nat, m ∈ ([] : List Nat) ↔
      ∃ q, Nat.Prime q ∧ q < 2 ∧ q ∣ m ∧ q < m ∧ m ≤ n := by
    intro m
    simp only [List.not_mem_nil, false_iff]
    rintro ⟨q, hq, hlt, -⟩
    have := hq.two_le
    omega
  have hprem0 : ([] : List Nat)
      = (List.range 2).filter (fun k => decide (Nat.Prime k)) := by
    rw [show List.range 2 = [0, 1] from rfl]
    simp [List.filter, Nat.not_prime_zero, Nat.not_prime_one]
  obtain ⟨hp2, hple, hsq, hprem, hbar⟩ :=
    eratLoop_spec n 2 [] [] le_rfl (by omega) hbar0 hprem0
  simp only [eratosthene]
  rw [hprem]
  have hfilter : (List.range' (eratLoop n 2 [] []).2.2
        (n + 1 - (eratLoop n 2 [] []).2.2)).filter
          (fun k => decide (k ∉ (eratLoop n 2 [] []).2.1))
      = (List.range' (eratLoop n 2 [] []).2.2
        (n + 1 - (eratLoop n 2 [] []).2.2)).filter
          (fun k => decide (Nat.Prime k)) := by
    apply List.filter_congr
    intro k hk
    obtain ⟨i, hilt, rfl⟩ := List.mem_range'.mp hk
    have hk_ge : (eratLoop n 2 [] []).2.2 ≤ (eratLoop n 2 [] []).2.2 + 1 * i := by
      omega
    have hk_le : (eratLoop n 2 [] []).2.2 + 1 * i ≤ n := by omega
    apply decide_eq_decide.mpr
    set k := (eratLoop n 2 [] []).2.2 + 1 * i with hkdef
    constructor
    · intro hnotbar
      by_contra hnp
      apply hnotbar
      apply (hbar k).mpr
      have hk2 : 2 ≤ k := by omega
      refine ⟨k.minFac, Nat.minFac_prime (by omega), ?_, Nat.minFac_dvd k,
        (Nat.not_prime_iff_minFac_lt hk2).mp hnp, hk_le⟩
      have hsqle : k.minFac ^ 2 ≤ k := Nat.minFac_sq_le_self (by omega) hnp
      by_contra hge
      push_neg at hge
      have h6 : (eratLoop n 2 [] []).2.2 * (eratLoop n 2 [] []).2.2
          ≤ k.minFac * k.minFac := Nat.mul_le_mul hge hge
      have h7 : k.minFac * k.minFac ≤ k := by
        have := hsqle
        rw [pow_two] at this
        exact this
      omega
    · intro hkprime hbarmem
      obtain ⟨q, hq1, hq2', hq3, hq4, -⟩ := (hbar k).mp hbarmem
      rcases (Nat.dvd_prime hkprime).mp hq3 with h | h
      · have := hq1.two_le
        omega
      · omega
  rw [hfilter, ← List.filter_append]
  congr 1
  rw [List.range_eq_range', List.range_eq_range']
  have := List.range'_append_1 0 (eratLoop n 2 [] []).2.2
    (n + 1 - (eratLoop n 2 [] []).2.2)
  rw [Nat.zero_add] at this
  rw [this]
  congr 1
  omega

/-! ### `factorise` (lines 207-237): repeated trial division

The `while m != 1` loop, including the flush of the pending `(p, alpha)`
pair both at a divisor change and after the loop.  On the states reachable
from `factorise n` with `n ≥ 1` the invariant `m = 1 ∨ 2 ≤ p ≤ m` holds
(proved below); the final catch-all branch, where the Python loop would
run forever (`m = 0`) or is unreachable, returns the flushed list so that
the recursion is well-founded. -/

def factoLoop (m p alpha : Nat) (facteurs : List (Nat × Nat)) : List (Nat × Nat) :=
  if m = 1 then if alpha ≠ 0 then facteurs ++ [(p, alpha)] else facteurs
  else if 2 ≤ p ∧ p ≤ m then
    if m % p = 0 then factoLoop (m / p) p (alpha + 1) facteurs
    else factoLoop m (p + 1) 0
      (if alpha ≠ 0 then facteurs ++ [(p, alpha)] else facteurs)
  else if alpha ≠ 0 then facteurs ++ [(p, alpha)] else facteurs
termination_by (m, m + 1 - p)
decreasing_by
  · exact Prod.Lex.left _ _ (Nat.div_lt_self (by omega) (by omega))
  · exact Prod.Lex.right m (by omega)

def factorise (n : Nat) : List (Nat × Nat) := factoLoop n 2 0 []

/-- Fuel-indexed version of the same `while m != 1` loop, one unit of fuel
per iteration; `none` means the loop has not finished.  Divergence of the
Python loop is `∀ fuel, factoFuel fuel … = none`. -/
def factoFuel : Nat → Nat → Nat → Nat → List (Nat × Nat) → Option (List (Nat × Nat))
  | 0, _, _, _, _ => none
  | fuel + 1, m, p, alpha, facteurs =>
    if m = 1 then some (if alpha ≠ 0 then facteurs ++ [(p, alpha)] else facteurs)
    else if m % p = 0 then factoFuel fuel (m / p) p (alpha + 1) facteurs
    else factoFuel fuel m (p + 1) 0
      (if alpha ≠ 0 then facteurs ++ [(p, alpha)] else facteurs)

/-- Product of a factor list: `∏ (p, alpha) in l, p ^ alpha`. -/
def prodPairs (l : List (Nat × Nat)) : Nat :=
  l.foldr (fun x acc => x.1 ^ x.2 * acc) 1

theorem prodPairs_nil : prodPairs [] = 1 := rfl

theorem prodPairs_cons (x : Nat × Nat) (l : List (Nat × Nat)) :
    prodPairs (x :: l) = x.1 ^ x.2 * prodPairs l := rfl

theorem factoLoop_spec :
    ∀ (m p alpha : Nat) (facteurs : List (Nat × Nat)),
      1 ≤ m → 2 ≤ p →
      (∀ q, 2 ≤ q → q < p → ¬q ∣ m) →
      (alpha ≠ 0 → Nat.Prime p) →
      ∃ rest : List (Nat × Nat),
        factoLoop m p alpha facteurs = facteurs ++ rest
          ∧ prodPairs rest = p ^ alpha * m
          ∧ (∀ x ∈ rest, p ≤ x.1 ∧ Nat.Prime x.1 ∧ 1 ≤ x.2)
          ∧ List.Pairwise (fun x y => x.1 < y.1) rest := by
  intro m p alpha facteurs
  induction m, p, alpha, facteurs using factoLoop.induct with
  | case1 p alpha facteurs halpha =>
    intro _ _ _ hprime
    rw [factoLoop, if_pos rfl, if_pos halpha]
    refine ⟨[(p, alpha)], rfl, ?_, ?_, ?_⟩
    · simp [prodPairs_cons, prodPairs_nil]
    · intro x hx
      rw [List.mem_singleton] at hx
      subst hx
      exact ⟨le_rfl, hprime halpha, by omega⟩
    · simp
  | case2 p alpha facteurs halpha =>
    intro _ _ _ _
    rw [factoLoop, if_pos rfl, if_neg halpha]
    refine ⟨[], by simp, ?_, by simp, List.Pairwise.nil⟩
    have : alpha = 0 := by omega
    simp [prodPairs_nil, this]
  | case3 m p alpha facteurs hm1 hcond hmod ih =>
    intro hm hp2 hsmall hprime
    have hdvd : p ∣ m := Nat.dvd_of_mod_eq_zero hmod
    have hpprime : Nat.Prime p := by
      by_contra hnp
      have hlt := (Nat.not_prime_iff_minFac_lt hp2).mp hnp
      exact hsmall p.minFac (Nat.minFac_prime (by omega)).two_le hlt
        ((Nat.minFac_dvd p).trans hdvd)
    obtain ⟨rest, heq, hprod, helem, hpair⟩ := ih
      (Nat.one_le_div_iff (by omega) |>.mpr hcond.2)
      hp2
      (fun q hq2 hqp hqdvd => hsmall q hq2 hqp (hqdvd.trans (Nat.div_dvd_of_dvd hdvd)))
      (fun _ => hpprime)
    refine ⟨rest, ?_, ?_, helem, hpair⟩
    · rw [factoLoop, if_neg hm1, if_pos hcond, if_pos hmod]
      exact heq
    · rw [hprod, pow_succ, mul_assoc, mul_comm p (m / p), Nat.div_mul_cancel hdvd]
  | case4 m p alpha facteurs hm1 hcond hmod ih =>
    intro hm hp2 hsmall hprime
    have hndvd : ¬p ∣ m := fun h => hmod (Nat.mod_eq_zero_of_dvd h)
    simp only [dite_eq_ite] at ih
    obtain ⟨rest', heq, hprod, helem, hpair⟩ := ih
      hm
      (by omega)
      (fun q hq2 hqp hqdvd => by
        rcases Nat.lt_or_ge q p with h | h
        · exact hsmall q hq2 h hqdvd
        · have hqp' : q = p := by omega
          rw [hqp'] at hqdvd
          exact hndvd hqdvd)
      (fun h => absurd rfl h)
    refine ⟨(if alpha ≠ 0 then [(p, alpha)] else []) ++ rest', ?_, ?_, ?_, ?_⟩
    · rw [factoLoop, if_neg hm1, if_pos hcond, if_neg hmod, heq]
      by_cases halpha : alpha = 0
      · simp [halpha]
      · simp [halpha]
    · by_cases halpha : alpha = 0
      · rw [if_neg (by omega), List.nil_append, hprod, halpha]
        ring
      · rw [if_pos halpha, List.singleton_append, prodPairs_cons, hprod]
        ring
    · intro x hx
      rw [List.mem_append] at hx
      rcases hx with hx | hx
      · by_cases halpha : alpha = 0
        · rw [if_neg (by omega)] at hx
          simp at hx
        · rw [if_pos halpha, List.mem_singleton] at hx
          subst hx
          exact ⟨le_rfl, hprime halpha, by omega⟩
      · obtain ⟨h1, h2, h3⟩ := helem x hx
        exact ⟨by omega, h2, h3⟩
    · by_cases halpha : alpha = 0
      · rw [if_neg (by omega), List.nil_append]
        exact hpair
      · rw [if_pos halpha, List.singleton_append, List.pairwise_cons]
        refine ⟨fun y hy => ?_, hpair⟩
        have := (helem y hy).1
        omega
  | case5 m p alpha facteurs hm1 hcond halpha =>
    intro hm hp2 hsmall _
    exfalso
    apply hcond
    refine ⟨hp2, ?_⟩
    have hdvd := Nat.minFac_dvd m
    have hle := Nat.minFac_le (show 0 < m by omega)
    rcases Nat.lt_or_ge m.minFac p with h | h
    · exact absurd hdvd (hsmall m.minFac (Nat.minFac_prime (by omega)).two_le h)
    · omega
  | case6 m p alpha facteurs hm1 hcond halpha =>
    intro hm hp2 hsmall _
    exfalso
    apply hcond
    refine ⟨hp2, ?_⟩
    have hdvd := Nat.minFac_dvd m
    have hle := Nat.minFac_le (show 0 < m by omega)
    rcases Nat.lt_or_ge m.minFac p with h | h
    · exact absurd hdvd (hsmall m.minFac (Nat.minFac_prime (by omega)).two_le h)
    · omega

theorem factorise_spec (n : Nat) (hn : 1 ≤ n) :
    prodPairs (factorise n) = n
      ∧ (∀ x ∈ factorise n, Nat.Prime x.1 ∧ 1 ≤ x.2)
      ∧ List.Pairwise (fun x y => x.1 < y.1) (factorise n) := by
  obtain ⟨rest, heq, hprod, helem, hpair⟩ :=
    factoLoop_spec n 2 0 [] hn le_rfl (fun q hq2 hq1 => by omega)
      (fun h => absurd rfl h)
  rw [factorise, heq, List.nil_append]
  refine ⟨by rw [hprod]; ring, fun x hx => ?_, hpair⟩
  obtain ⟨-, h2, h3⟩ := helem x hx
  exact ⟨h2, h3⟩

theorem factorise_one : factorise 1 = [] := by
  rw [factorise, factoLoop]
  simp

theorem factoFuel_terminates :
    ∀ (m p alpha : Nat) (facteurs : List (Nat × Nat)),
      1 ≤ m → 2 ≤ p →
      (∀ q, 2 ≤ q → q < p → ¬q ∣ m) →
      ∃ fuel, factoFuel fuel m p alpha facteurs
        = some (factoLoop m p alpha facteurs) := by
  intro m p alpha facteurs
  induction m, p, alpha, facteurs using factoLoop.induct with
  | case1 p alpha facteurs halpha =>
    intro _ _ _
    refine ⟨1, ?_⟩
    rw [factoFuel, if_pos rfl, factoLoop, if_pos rfl]
  | case2 p alpha facteurs halpha =>
    intro _ _ _
    refine ⟨1, ?_⟩
    rw [factoFuel, if_pos rfl, factoLoop, if_pos rfl]
  | case3 m p alpha facteurs hm1 hcond hmod ih =>
    intro hm hp2 hsmall
    have hdvd : p ∣ m := Nat.dvd_of_mod_eq_zero hmod
    obtain ⟨fuel, hf⟩ := ih
      (Nat.one_le_div_iff (by omega) |>.mpr hcond.2)
      hp2
      (fun q hq2 hqp hqdvd => hsmall q hq2 hqp (hqdvd.trans (Nat.div_dvd_of_dvd hdvd)))
    refine ⟨fuel + 1, ?_⟩
    rw [factoLoop, if_neg hm1, if_pos hcond, if_pos hmod,
      factoFuel, if_neg hm1, if_pos hmod]
    exact hf
  | case4 m p alpha facteurs hm1 hcond hmod ih =>
    intro hm hp2 hsmall
    have hndvd : ¬p ∣ m := fun h => hmod (Nat.mod_eq_zero_of_dvd h)
    simp only [dite_eq_ite] at ih
    obtain ⟨fuel, hf⟩ := ih
      hm
      (by omega)
      (fun q hq2 hqp hqdvd => by
        rcases Nat.lt_or_ge q p with h | h
        · exact hsmall q hq2 h hqdvd
        · have hqp' : q = p := by omega
          rw [hqp'] at hqdvd
          exact hndvd hqdvd)
    refine ⟨fuel + 1, ?_⟩
    rw [factoLoop, if_neg hm1, if_pos hcond, if_neg hmod,
      factoFuel, if_neg hm1, if_neg hmod]
    exact hf
  | case5 m p alpha facteurs hm1 hcond halpha =>
    intro hm hp2 hsmall
    exfalso
    apply hcond
    refine ⟨hp2, ?_⟩
    have hdvd := Nat.minFac_dvd m
    have hle := Nat.minFac_le (show 0 < m by omega)
    rcases Nat.lt_or_ge m.minFac p with h | h
    · exact absurd hdvd (hsmall m.minFac (Nat.minFac_prime (by omega)).two_le h)
    · omega
  | case6 m p alpha facteurs hm1 hcond halpha =>
    intro hm hp2 hsmall
    exfalso
    apply hcond
    refine ⟨hp2, ?_⟩
    have hdvd := Nat.minFac_dvd m
    have hle := Nat.minFac_le (show 0 < m by omega)
    rcases Nat.lt_or_ge m.minFac p with h | h
    · exact absurd hdvd (hsmall m.minFac (Nat.minFac_prime (by omega)).two_le h)
    · omega

/-! ### `plus_petit_diviseur` (lines 257-275) and `est_premier2` (lines 277-291) -/

/-- The `while d * d <= n and n % d != 0` loop, returning the final `d`. -/
def ppdLoop (n d : Nat) : Nat :=
  if d * d ≤ n ∧ n % d ≠ 0 then ppdLoop n (d + 1) else d
termination_by n + 1 - d
decreasing_by
  have : d ≤ n := by nlinarith
  omega

def plus_petit_diviseur (n : Nat) : Nat :=
  let d := ppdLoop n 2
  if d * d ≤ n then d else n

def est_premier2 (n : Nat) : Bool := plus_petit_diviseur n == n

theorem ppdLoop_spec (n : Nat) :
    ∀ d : Nat, 2 ≤ d → (∀ q, 2 ≤ q → q < d → ¬q ∣ n) →
      2 ≤ ppdLoop n d
        ∧ (∀ q, 2 ≤ q → q < ppdLoop n d → ¬q ∣ n)
        ∧ (ppdLoop n d * ppdLoop n d ≤ n → ppdLoop n d ∣ n) := by
  intro d
  induction d using ppdLoop.induct n with
  | case1 d hcond ih =>
    intro hd hinv
    rw [ppdLoop, if_pos hcond]
    apply ih (by omega)
    intro q hq2 hqd
    rcases Nat.lt_or_ge q d with h | h
    · exact hinv q hq2 h
    · have hqd' : q = d := by omega
      subst hqd'
      intro hdvd
      exact hcond.2 (Nat.mod_eq_zero_of_dvd hdvd)
  | case2 d hcond =>
    intro hd hinv
    rw [ppdLoop, if_neg hcond]
    refine ⟨hd, hinv, fun hsq => ?_⟩
    rcases Decidable.not_and_iff_or_not.mp hcond with h | h
    · exact absurd hsq h
    · have hmod : n % d = 0 := by omega
      exact Nat.dvd_of_mod_eq_zero hmod

theorem plus_petit_diviseur_spec (n : Nat) (hn : 2 ≤ n) :
    plus_petit_diviseur n ∣ n ∧ 2 ≤ plus_petit_diviseur n
      ∧ ∀ q, 2 ≤ q → q ∣ n → plus_petit_diviseur n ≤ q := by
  obtain ⟨h2, hinv, hdvd⟩ := ppdLoop_spec n 2 le_rfl (by omega)
  rw [plus_petit_diviseur]
  by_cases hsq : ppdLoop n 2 * ppdLoop n 2 ≤ n
  · rw [if_pos hsq]
    refine ⟨hdvd hsq, h2, ?_⟩
    intro q hq2 hqdvd
    by_contra hlt
    exact hinv q hq2 (by omega) hqdvd
  · rw [if_neg hsq]
    refine ⟨dvd_rfl, hn, ?_⟩
    intro q hq2 hqdvd
    by_contra hlt
    push_neg at hlt
    obtain ⟨t, ht⟩ := hqdvd
    have ht2 : 2 ≤ t := by
      rcases Nat.lt_or_ge t 2 with h | h
      · interval_cases t <;> omega
      · exact h
    have htdvd : t ∣ n := ⟨q, by rw [ht]; ring⟩
    -- one of q, t is at most √n, contradicting the loop invariant
    rcases Nat.le_total q t with hqt | hqt
    · have hq_sq : q * q ≤ n := by nlinarith
      have hlt_e : q < ppdLoop n 2 := by
        by_contra hge
        push_neg at hge
        have := Nat.mul_le_mul hge hge
        omega
      exact hinv q hq2 hlt_e ⟨t, ht⟩
    · have ht_sq : t * t ≤ n := by nlinarith
      have hlt_e : t < ppdLoop n 2 := by
        by_contra hge
        push_neg at hge
        have := Nat.mul_le_mul hge hge
        omega
      exact hinv t ht2 hlt_e htdvd

theorem est_premier2_iff (n : Nat) (hn : 2 ≤ n) :
    est_premier2 n = true ↔ Nat.Prime n := by
  obtain ⟨hdvd, h2, hmin⟩ := plus_petit_diviseur_spec n hn
  rw [est_premier2, beq_iff_eq]
  constructor
  · intro heq
    rw [Nat.prime_def_lt]
    refine ⟨hn, fun m hmlt hmdvd => ?_⟩
    by_contra hm1
    have hm2 : 2 ≤ m := by
      rcases Nat.eq_zero_or_pos m with rfl | h
      · obtain rfl := Nat.eq_zero_of_zero_dvd hmdvd
        omega
      · omega
    have := hmin m hm2 hmdvd
    omega
  · intro hp
    rcases (Nat.dvd_prime hp).mp hdvd with h | h
    · omega
    · exact h

/-! ### `expo_mod_rapide` (lines 295-319): square-and-multiply

The exponent `b` has precondition `b >= 0` and is embedded as `Nat`
(on a negative exponent the Python loop would never terminate). -/

/-- The `while k != 0` loop with state `(r, s, k)`. -/
def expoLoop (n r s : Int) (k : Nat) : Int :=
  if k = 0 then r
  else expoLoop n (if k % 2 = 1 then Int.fmod (r * s) n else r)
    (Int.fmod (s * s) n) (k / 2)
termination_by k
decreasing_by exact Nat.div_lt_self (by omega) (by omega)

def expo_mod_rapide (a : Int) (b : Nat) (n : Int) : Int := expoLoop n 1 a b

theorem emod_self_modEq (x n : Int) : x % n ≡ x [ZMOD n] :=
  Int.emod_emod_of_dvd x dvd_rfl

theorem expoLoop_eq (n : Int) (hn : 0 ≤ n) :
    ∀ (r s : Int) (k : Nat), k ≠ 0 → expoLoop n r s k = r * s ^ k % n := by
  intro r s k
  induction r, s, k using expoLoop.induct n with
  | case1 r s =>
    intro h
    exact absurd rfl h
  | case2 r s k hk ih =>
    intro _
    rw [expoLoop, if_neg hk]
    simp only [dite_eq_ite] at ih
    by_cases hk2 : k / 2 = 0
    · have hk1 : k = 1 := by omega
      subst hk1
      rw [hk2, expoLoop, if_pos rfl]
      norm_num [Int.fmod_eq_emod _ hn]
    · rw [ih hk2]
      show _ ≡ _ [ZMOD n]
      have hs : Int.fmod (s * s) n ≡ s * s [ZMOD n] := by
        rw [Int.fmod_eq_emod _ hn]
        exact emod_self_modEq _ n
      have hr : (if k % 2 = 1 then Int.fmod (r * s) n else r)
          ≡ r * s ^ (k % 2) [ZMOD n] := by
        by_cases hpar : k % 2 = 1
        · rw [if_pos hpar, hpar, pow_one, Int.fmod_eq_emod _ hn]
          exact emod_self_modEq _ n
        · have h0 : k % 2 = 0 := by omega
          rw [if_neg hpar, h0, pow_zero, mul_one]
      calc (if k % 2 = 1 then Int.fmod (r * s) n else r) * Int.fmod (s * s) n ^ (k / 2)
          ≡ (r * s ^ (k % 2)) * (s * s) ^ (k / 2) [ZMOD n] := hr.mul (hs.pow _)
        _ = r * s ^ k := by
            rw [mul_assoc, ← pow_two, ← pow_mul, ← pow_add]
            congr 2
            omega

/-- For `b ≥ 1` (or any `b` when `n > 1` does not matter: the final iteration
reduces `r` modulo `n`), the loop computes the canonical residue. -/
theorem expo_mod_rapide_eq (a : Int) (b : Nat) (n : Int) (hn : 0 < n)
    (h : 1 < n ∨ 0 < b) : expo_mod_rapide a b n = a ^ b % n := by
  rcases Nat.eq_zero_or_pos b with rfl | hb
  · rcases h with h | h
    · rw [expo_mod_rapide, expoLoop, if_pos rfl, pow_zero, Int.emod_eq_of_lt (by omega) h]
    · omega
  · rw [expo_mod_rapide, expoLoop_eq n (le_of_lt hn) 1 a b (by omega), one_mul]

/-! ### `est_temoin_non_primalite` (lines 323-338) -/

def est_temoin_non_primalite (a n : Int) : Bool :=
  pgcd a n == 1 && expo_mod_rapide a (n - 1).toNat n != 1

/-! ### `est_premier_probable_fermat` (lines 340-350)

The body evaluates
`any(est_temoin_non_primalite(randrange(2, n-1), n) for k in range(nbtentatives))`,
but the module never imports `randrange` (there is no `import` of `random`
anywhere in `arithmetique.py`).  The generator is lazy, so with
`nbtentatives = 0` the name is never evaluated and the call returns `True`;
with `nbtentatives ≥ 1` evaluating the first element raises
a `NameError` naming `randrange`, embedded as `Except.error`. -/

def est_premier_probable_fermat (n : Int) (nbtentatives : Nat := 20) :
    Except String Bool :=
  if nbtentatives = 0 then Except.ok true
  else Except.error "NameError: name randrange is not defined"

/-! ## Claim theorems -/

/-- **C1**: for every pair of integers `(a, b) ≠ (0, 0)`, including pairs with
one or both operands negative, `euclide_etendu a b` returns a triple
`(d, u, v)` with `d = pgcd a b`, `d = a*u + b*v`, and `d ≥ 0`. -/
theorem C1_euclide_etendu (a b : Int) (hab : ¬(a = 0 ∧ b = 0)) :
    (euclide_etendu a b).1 = pgcd a b
      ∧ (euclide_etendu a b).1
          = a * (euclide_etendu a b).2.1 + b * (euclide_etendu a b).2.2
      ∧ 0 ≤ (euclide_etendu a b).1 := by
  obtain ⟨h1, h2, h3⟩ := euclide_etendu_spec a b
  exact ⟨by rw [h2, pgcd_eq_gcd], h1, h3⟩

theorem C1_euclide_etendu_witness :
    ¬((42 : Int) = 0 ∧ (-26 : Int) = 0)
      ∧ ((euclide_etendu 42 (-26)).1 = pgcd 42 (-26)
        ∧ (euclide_etendu 42 (-26)).1
            = 42 * (euclide_etendu 42 (-26)).2.1
              + (-26) * (euclide_etendu 42 (-26)).2.2
        ∧ 0 ≤ (euclide_etendu 42 (-26)).1) :=
  ⟨by decide, C1_euclide_etendu 42 (-26) (by decide)⟩

/-- **C2** (code bug): the claim says `est_premier_probable_fermat n attempts`
always completes normally and returns a boolean, but the module never imports
`randrange`, so every call with `attempts ≥ 1` raises a `NameError` (here:
`Except.error`); only `attempts = 0` returns a boolean (`True`), without
sampling anything.  Evaluated at the failing input `n = 5`, one attempt. -/
theorem C2_est_premier_probable_fermat_bug :
    est_premier_probable_fermat 5 1
        = Except.error "NameError: name randrange is not defined"
      ∧ est_premier_probable_fermat 5 0 = Except.ok true :=
  ⟨rfl, rfl⟩

/-- **C3** (counterexample): at `a = 2, b = 0, n = 1` the code returns the
initial accumulator `1` unreduced, but `(2 ^ 0) mod 1 = 0`. -/
theorem C3_counterexample :
    expo_mod_rapide 2 0 1 = 1 ∧ ((2 : Int) ^ (0 : Nat)) % 1 = 0 := by
  constructor
  · rw [expo_mod_rapide, expoLoop, if_pos rfl]
  · decide

/-- **C3** (amended): for every integer `a`, every exponent `b ≥ 0` and every
modulus `n > 0` with `n > 1` or `b > 0`, `expo_mod_rapide a b n = a^b mod n`
(the only excluded case, `b = 0` and `n = 1`, returns `1` instead of `0`). -/
theorem C3_expo_mod_rapide (a : Int) (b : Nat) (n : Int) (hn : 0 < n)
    (h : 1 < n ∨ 0 < b) : expo_mod_rapide a b n = a ^ b % n :=
  expo_mod_rapide_eq a b n hn h

theorem C3_expo_mod_rapide_witness :
    (0 : Int) < 100 ∧ ((1 : Int) < 100 ∨ 0 < 10)
      ∧ expo_mod_rapide 2 10 100 = (2 : Int) ^ (10 : Nat) % 100 :=
  ⟨by norm_num, Or.inl (by norm_num),
    C3_expo_mod_rapide 2 10 100 (by norm_num) (Or.inl (by norm_num))⟩

/-- **C4** (counterexample): `gcd 3 (-7) = 1`, yet `inverse_mod 3 (-7)`
returns `-2`, which is not in the claimed range `[0, |n|) = [0, 7)`. -/
theorem C4_counterexample :
    Int.gcd 3 (-7) = 1
      ∧ inverse_mod 3 (-7) = Except.ok (-2)
      ∧ ¬(0 ≤ (-2 : Int)) := by
  refine ⟨by decide, ?_, by decide⟩
  simp [inverse_mod, euclide_etendu, euclideLoop]

/-- **C4** (amended): for `n ≠ 0`, if `gcd a n = 1` then `inverse_mod a n`
returns `u` with `(a*u) mod n = 1 mod n` (Python floor-mod) and `u ∈ [0, n)`
when `n > 0` but `u ∈ (n, 0]` when `n < 0`; if `gcd a n ≠ 1` it fails with
the NotInvertible assertion error. -/
theorem C4_inverse_mod (a n : Int) (hn : n ≠ 0) :
    (Int.gcd a n = 1 →
      ∃ u, inverse_mod a n = Except.ok u
        ∧ Int.fmod (a * u) n = Int.fmod 1 n
        ∧ (0 < n → 0 ≤ u ∧ u < n)
        ∧ (n < 0 → n < u ∧ u ≤ 0))
    ∧ (Int.gcd a n ≠ 1 →
      inverse_mod a n = Except.error "a non inversible modulo n") :=
  inverse_mod_spec a n hn

theorem C4_inverse_mod_witness :
    (7 : Int) ≠ 0 ∧ Int.gcd 3 7 = 1
      ∧ (∃ u, inverse_mod 3 7 = Except.ok u
          ∧ Int.fmod (3 * u) 7 = Int.fmod 1 7
          ∧ (0 < (7 : Int) → 0 ≤ u ∧ u < 7)
          ∧ ((7 : Int) < 0 → 7 < u ∧ u ≤ 0)) :=
  ⟨by decide, by decide, (C4_inverse_mod 3 7 (by decide)).1 (by decide)⟩

/-- **C5**: for `(a, b) ≠ (0, 0)`: if `pgcd a b` does not divide `c`,
`resoud_equation a b c` returns the empty result (`none`) normally; otherwise
it returns `((x0, y0), (alpha, beta))` with
`a*(x0 + alpha*k) + b*(y0 + beta*k) = c` for every integer `k`, and every
integer solution of `a*x + b*y = c` is of that form. -/
theorem C5_resoud_equation (a b c : Int) (hab : ¬(a = 0 ∧ b = 0)) :
    (¬(pgcd a b ∣ c) → resoud_equation a b c = none)
    ∧ (pgcd a b ∣ c →
      ∃ x0 y0 alpha beta : Int,
        resoud_equation a b c = some ((x0, y0), (alpha, beta))
          ∧ (∀ k : Int, a * (x0 + alpha * k) + b * (y0 + beta * k) = c)
          ∧ (∀ x y : Int, a * x + b * y = c →
              ∃ k : Int, x = x0 + alpha * k ∧ y = y0 + beta * k)) :=
  resoud_equation_spec a b c hab

theorem C5_resoud_equation_witness :
    ¬((4 : Int) = 0 ∧ (6 : Int) = 0) ∧ pgcd 4 6 ∣ 2
      ∧ (∃ x0 y0 alpha beta : Int,
        resoud_equation 4 6 2 = some ((x0, y0), (alpha, beta))
          ∧ (∀ k : Int, 4 * (x0 + alpha * k) + 6 * (y0 + beta * k) = 2)
          ∧ (∀ x y : Int, 4 * x + 6 * y = 2 →
              ∃ k : Int, x = x0 + alpha * k ∧ y = y0 + beta * k)) :=
  ⟨by decide, by rw [pgcd_eq_gcd]; norm_num,
    (C5_resoud_equation 4 6 2 (by decide)).2 (by rw [pgcd_eq_gcd]; norm_num)⟩

/-- **C6**: for every `n ≥ 2`, `eratosthene n` is strictly ascending (hence
duplicate-free) and its members are exactly the integers in `[2, n]` with no
divisor other than 1 and themselves. -/
theorem C6_eratosthene (n : Nat) (hn : 2 ≤ n) :
    List.Pairwise (· < ·) (eratosthene n)
      ∧ ∀ k, k ∈ eratosthene n ↔
          (2 ≤ k ∧ k ≤ n ∧ ∀ d, d ∣ k → d = 1 ∨ d = k) := by
  rw [eratosthene_eq n (by omega)]
  constructor
  · exact (List.pairwise_lt_range (n + 1)).filter _
  · intro k
    rw [List.mem_filter, List.mem_range, decide_eq_true_eq]
    constructor
    · rintro ⟨hk, hp⟩
      exact ⟨hp.two_le, by omega, fun d hd => (Nat.dvd_prime hp).mp hd⟩
    · rintro ⟨h2, hle, hdiv⟩
      refine ⟨by omega, ?_⟩
      rw [Nat.prime_def_lt]
      refine ⟨h2, fun m hm hdvd => ?_⟩
      rcases hdiv m hdvd with h | h
      · exact h
      · omega

theorem C6_eratosthene_witness :
    2 ≤ 10
      ∧ (List.Pairwise (· < ·) (eratosthene 10)
        ∧ ∀ k, k ∈ eratosthene 10 ↔
            (2 ≤ k ∧ k ≤ 10 ∧ ∀ d, d ∣ k → d = 1 ∨ d = k)) :=
  ⟨by decide, C6_eratosthene 10 (by decide)⟩

/-- **C7**: for every `n ≥ 1`, `factorise n` is a list of pairs `(p, alpha)`
with `p` prime, strictly ascending primes, `alpha ≥ 1`, whose product of
`p ^ alpha` reconstructs `n`; and `factorise 1 = []`. -/
theorem C7_factorise :
    (∀ n : Nat, 1 ≤ n →
      prodPairs (factorise n) = n
        ∧ (∀ x ∈ factorise n, Nat.Prime x.1 ∧ 1 ≤ x.2)
        ∧ List.Pairwise (fun x y : Nat × Nat => x.1 < y.1) (factorise n))
    ∧ factorise 1 = [] :=
  ⟨fun n hn => factorise_spec n hn, factorise_one⟩

theorem C7_factorise_witness :
    1 ≤ 504
      ∧ (prodPairs (factorise 504) = 504
        ∧ (∀ x ∈ factorise 504, Nat.Prime x.1 ∧ 1 ≤ x.2)
        ∧ List.Pairwise (fun x y : Nat × Nat => x.1 < y.1) (factorise 504)) :=
  ⟨by decide, C7_factorise.1 504 (by decide)⟩

/-- **C8** (counterexample): the source contains no precondition check in
`pgcd`, `euclide_etendu` or `mon_divmod`: `pgcd 0 0` returns `0`,
`euclide_etendu 0 0` returns `(0, 1, 0)`, and `mon_divmod (-3) (-2)` (a case
with `b ≤ 0`) returns `(0, -3)` — all normal returns where the claim demands a
raised precondition-violation error. -/
theorem C8_counterexample :
    pgcd 0 0 = 0
      ∧ euclide_etendu 0 0 = (0, 1, 0)
      ∧ mon_divmod (-3) (-2) = some (0, -3) := by
  refine ⟨?_, ?_, rfl⟩
  · simp [pgcd, pgcdLoop]
  · simp [euclide_etendu, euclideLoop]

/-- **C8** (amended): no precondition check exists in `pgcd`,
`euclide_etendu` or `mon_divmod`.  `pgcd 0 0` returns `0` and
`euclide_etendu 0 0` returns `(0, 1, 0)` silently; `mon_divmod a b` with
`b ≤ 0` never raises: it returns `(0, a)` when `a < b` and loops forever
(no amount of fuel finishes) when `a ≥ b`.  Only `inverse_mod` fails fast,
via `assert`, on `n = 0`. -/
theorem C8_amended :
    pgcd 0 0 = 0
      ∧ euclide_etendu 0 0 = (0, 1, 0)
      ∧ (∀ a b : Int, b ≤ 0 → a < b → mon_divmod a b = some (0, a))
      ∧ (∀ (a b : Int) (fuel : Nat), b ≤ 0 → b ≤ a →
          monDivmodLoop fuel b 0 a = none)
      ∧ (∀ a : Int, inverse_mod a 0 = Except.error "n ne doit pas etre nul") := by
  refine ⟨by simp [pgcd, pgcdLoop], by simp [euclide_etendu, euclideLoop],
    ?_, ?_, ?_⟩
  · intro a b hb hab
    rw [mon_divmod, monDivmodLoop, if_neg (by omega)]
  · intro a b fuel hb hba
    exact monDivmodLoop_none_of_nonpos b hb fuel 0 a hba
  · intro a
    rw [inverse_mod, if_pos rfl]

theorem C8_amended_witness :
    mon_divmod (-3) (-2) = some (0, -3)
      ∧ monDivmodLoop 5 (-2) 0 7 = none
      ∧ inverse_mod 5 0 = Except.error "n ne doit pas etre nul" :=
  ⟨C8_amended.2.2.1 (-3) (-2) (by decide) (by decide),
    C8_amended.2.2.2.1 7 (-2) 5 (by decide) (by decide),
    C8_amended.2.2.2.2 5⟩

/-- **C9**: for every `n ≥ 2` the two trial-division primality variants agree,
`est_premier1 n = est_premier2 n`, and both return `true` exactly when `n` is
prime. -/
theorem C9_est_premier (n : Nat) (hn : 2 ≤ n) :
    est_premier1 n = est_premier2 n
      ∧ (est_premier1 n = true ↔ Nat.Prime n) := by
  have h1 : est_premier1 n = true ↔ Nat.Prime n := by
    rw [est_premier1, decide_eq_true_eq, eratosthene_eq n (by omega),
      List.mem_filter, List.mem_range, decide_eq_true_eq]
    constructor
    · rintro ⟨-, hp⟩
      exact hp
    · intro hp
      exact ⟨by omega, hp⟩
  have h2 := est_premier2_iff n hn
  exact ⟨Bool.eq_iff_iff.mpr (h1.trans h2.symm), h1⟩

theorem C9_est_premier_witness :
    2 ≤ 13
      ∧ (est_premier1 13 = est_premier2 13
        ∧ (est_premier1 13 = true ↔ Nat.Prime 13)) :=
  ⟨by decide, C9_est_premier 13 (by decide)⟩

/-- **C10**: for every `n ≥ 1` the `while m != 1` loop of `factorise`
terminates: some finite fuel makes the step-faithful fueled loop finish, with
the same result as the well-founded definition `factorise`. -/
theorem C10_factorise_terminates (n : Nat) (hn : 1 ≤ n) :
    ∃ fuel, factoFuel fuel n 2 0 [] = some (factorise n) :=
  factoFuel_terminates n 2 0 [] hn le_rfl (fun q hq2 hq1 => by omega)

theorem C10_factorise_terminates_witness :
    1 ≤ 12 ∧ ∃ fuel, factoFuel fuel 12 2 0 [] = some (factorise 12) :=
  ⟨by decide, C10_factorise_terminates 12 (by decide)⟩

end Arithmetique
